import Mathlib

/-!
Verification of the ETA-calculator core (`src/eta_calculator.py`).

The program computes, for a total memory capacity and a list of process
periods (one byte consumed every `p` ticks by each process), the time at
which cumulative consumption first reaches the capacity.

This file shallowly embeds the two core Python functions:

* `get_bytes_used` embeds `get_bytes_used(current_time, process_durations)`
  (the consumption counter with its sort-based early `break`);
* `calculate_eta` embeds `calculate_eta(user_input)` (boundary
  short-circuit, reference point at the maximum period, multiplier binary
  search, time binary search, and final linear scan).

Machine integers are modelled as `Nat` (all quantities in the claims are
non-negative, and every subtraction performed by the program happens on
values the program keeps at least 1, so truncated subtraction agrees with
Python's arithmetic there).  Fallible behaviour is modelled with `Option`:
`none` models a raised `IndexError` (the `process_durations[-1]` access on
an empty list) and also exhaustion of the explicit fuel that replaces the
unbounded `while` loop of the final linear scan; the fuel supplied by
`calculate_eta` is proved sufficient for every input of interest, so for
those inputs `none` can only arise from the empty-list access.
-/

namespace EtaCalculator

/-- Embeds `get_bytes_used(current_time, process_durations)` (lines
152-178): iterate over the durations, adding `current_time // p_time` for
each, breaking out of the loop as soon as `p_time > current_time`. -/
def get_bytes_used (current_time : Nat) : List Nat → Nat
  | [] => 0
  | p_time :: rest =>
    if p_time > current_time then 0
    else current_time / p_time + get_bytes_used current_time rest

/-- Embeds the multiplier binary-search loop of `calculate_eta` (lines
100-110): while `min_m < max_m`, probe `multiplier = (min_m + max_m) // 2`
at time `max_pd * multiplier`; if the probe overshoots `total_memory`,
shrink `max_m` to `multiplier - 1`, otherwise record the probe as
`closest` and raise `min_m` to `multiplier + 1`.  Returns the final
`closest_multiplier`. -/
def mult_search (total_memory max_pd : Nat) (pds : List Nat)
    (min_m max_m closest : Nat) : Nat :=
  if h : min_m < max_m then
    if get_bytes_used (max_pd * ((min_m + max_m) / 2)) pds > total_memory then
      mult_search total_memory max_pd pds min_m ((min_m + max_m) / 2 - 1) closest
    else
      mult_search total_memory max_pd pds ((min_m + max_m) / 2 + 1) max_m
        ((min_m + max_m) / 2)
  else closest
termination_by max_m + 1 - min_m
decreasing_by
· omega
· omega

/-- Embeds the fine time binary-search loop of `calculate_eta` (lines
121-130): while `min_t < max_t`, probe `time_taken = (min_t + max_t) // 2`;
on overshoot shrink `max_t` to `time_taken - 1`, otherwise set `closest`
to the old lower bound `min_t` (exactly as the source does) and raise
`min_t` to `time_taken + 1`.  Returns the final `closest_time`. -/
def time_search (total_memory : Nat) (pds : List Nat)
    (min_t max_t closest : Nat) : Nat :=
  if h : min_t < max_t then
    if get_bytes_used ((min_t + max_t) / 2) pds > total_memory then
      time_search total_memory pds min_t ((min_t + max_t) / 2 - 1) closest
    else
      time_search total_memory pds ((min_t + max_t) / 2 + 1) max_t min_t
  else closest
termination_by max_t + 1 - min_t
decreasing_by
· omega
· omega

/-- Embeds the final linear-scan loop of `calculate_eta` (lines 138-146):
`bytes_used` starts as the consumption at the scan's starting time; while
`bytes_used < total_memory`, recompute `bytes_used` at the current
`time_taken` and then increment `time_taken`; on exit return
`time_taken - 1`.  The unbounded Python `while` is modelled with explicit
fuel; running out of fuel yields `none`. -/
def linear_scan (fuel total_memory : Nat) (pds : List Nat)
    (bytes_used time_taken : Nat) : Option Nat :=
  match fuel with
  | 0 => none
  | fuel' + 1 =>
    if bytes_used < total_memory then
      linear_scan fuel' total_memory pds (get_bytes_used time_taken pds)
        (time_taken + 1)
    else some (time_taken - 1)

/-- The linear scan as `calculate_eta` enters it, starting from time
`time_taken` (line 138 recomputes the consumption there first).  The fuel
`total_memory * max_pd + time_taken + 2` is proved sufficient
(`scan_from_isSome`) for every non-empty positive period list. -/
def scan_from (total_memory max_pd : Nat) (pds : List Nat)
    (time_taken : Nat) : Option Nat :=
  linear_scan (total_memory * max_pd + time_taken + 2) total_memory pds
    (get_bytes_used time_taken pds) time_taken

/-- The `closest_multiplier` produced by the multiplier search as invoked
by `calculate_eta` (lines 96-98): `min_multiplier = 1`,
`max_multiplier = total_memory // bytes_used` where `bytes_used` is the
consumption at the maximum process duration, initial `closest = 1`. -/
def closest_multiplier (total_memory max_pd : Nat) (pds : List Nat) : Nat :=
  mult_search total_memory max_pd pds 1
    (total_memory / get_bytes_used max_pd pds) 1

/-- The `closest_time` produced by the time search as invoked by
`calculate_eta` (lines 117-119): the window is
`[max_pd * closest_multiplier, max_pd * (closest_multiplier + 1)]` and the
initial `closest` is its lower end. -/
def closest_time (total_memory max_pd : Nat) (pds : List Nat) : Nat :=
  time_search total_memory pds
    (max_pd * closest_multiplier total_memory max_pd pds)
    (max_pd * (closest_multiplier total_memory max_pd pds + 1))
    (max_pd * closest_multiplier total_memory max_pd pds)

/-- Embeds `calculate_eta(user_input)` (lines 48-146).  `user_input[0]` is
the total memory, `user_input[1:]` the process durations.  `none` models
the `IndexError` raised by `user_input[0]` on an empty input or by
`process_durations[-1]` on an empty duration list.  Python's in-place
ascending `process_durations.sort()` is modelled by `List.insertionSort`
(same ascending result on naturals); `process_durations[-1]` is the last
and `process_durations[0]` the head of the sorted list. -/
def calculate_eta (user_input : List Nat) : Option Nat :=
  match user_input with
  | [] => none
  | total_memory :: rest =>
    if total_memory = 0 then some 0
    else
      match (List.insertionSort (· ≤ ·) rest).getLast? with
      | none => none
      | some max_pd =>
        if get_bytes_used max_pd (List.insertionSort (· ≤ ·) rest) = total_memory then
          some max_pd
        else if get_bytes_used max_pd (List.insertionSort (· ≤ ·) rest) > total_memory then
          scan_from total_memory max_pd (List.insertionSort (· ≤ ·) rest)
            ((List.insertionSort (· ≤ ·) rest).headD 0)
        else
          scan_from total_memory max_pd (List.insertionSort (· ≤ ·) rest)
            (closest_time total_memory max_pd (List.insertionSort (· ≤ ·) rest))

/-- The solver interface of the spec: `eta(capacity, periods)` invokes
`calculate_eta` on the input line `capacity :: periods`. -/
def eta (capacity : Nat) (periods : List Nat) : Option Nat :=
  calculate_eta (capacity :: periods)

/-- Models the Python heap effect of `calculate_eta` on the caller's list:
`process_durations = user_input[1:]` (line 68) allocates a fresh list, and
`process_durations.sort()` (line 77) mutates only that fresh list, so the
caller's `user_input` is unchanged when the call returns.  The value
returned here is the state of the caller's list after the call. -/
def calculate_eta_caller_list (user_input : List Nat) : List Nat :=
  let process_durations := user_input.drop 1
  let _sorted := List.insertionSort (· ≤ ·) process_durations
  user_input

example : calculate_eta [4, 3, 7] = some 9 := by
  simp [calculate_eta, closest_time, closest_multiplier, mult_search,
    time_search, scan_from, linear_scan, get_bytes_used]

example : get_bytes_used 12 [2, 3, 4] = 13 := by decide

example : get_bytes_used 14 [2, 3, 4] = 14 := by decide

/-! ### Basic equations -/

theorem get_bytes_used_nil (t : Nat) : get_bytes_used t [] = 0 := rfl

theorem get_bytes_used_cons (t p : Nat) (rest : List Nat) :
    get_bytes_used t (p :: rest) =
      if p > t then 0 else t / p + get_bytes_used t rest := rfl

theorem linear_scan_zero (cap : Nat) (ps : List Nat) (b t : Nat) :
    linear_scan 0 cap ps b t = none := rfl

theorem linear_scan_succ (fuel cap : Nat) (ps : List Nat) (b t : Nat) :
    linear_scan (fuel + 1) cap ps b t =
      if b < cap then linear_scan fuel cap ps (get_bytes_used t ps) (t + 1)
      else some (t - 1) := rfl

/-! ### The consumption counter -/

/-- On an ascending list the early `break` is harmless: the result is the
full sum of `t / p` over the list. -/
theorem get_bytes_used_eq_sum {ps : List Nat} (hs : List.Sorted (· ≤ ·) ps)
    (t : Nat) : get_bytes_used t ps = (ps.map fun p => t / p).sum := by
  induction ps with
  | nil => rfl
  | cons p rest ih =>
    rcases List.sorted_cons.mp hs with ⟨hp, hrest⟩
    rw [get_bytes_used_cons, List.map_cons, List.sum_cons]
    by_cases hpt : p > t
    · have hz : (rest.map fun q => t / q).sum = 0 := by
        apply List.sum_eq_zero
        intro x hx
        rcases List.mem_map.mp hx with ⟨q, hq, rfl⟩
        exact Nat.div_eq_of_lt (lt_of_lt_of_le hpt (hp q hq))
      rw [if_pos hpt, Nat.div_eq_of_lt hpt, hz]
    · rw [if_neg hpt, ih hrest]

theorem get_bytes_used_mono {ps : List Nat} (hs : List.Sorted (· ≤ ·) ps)
    {t1 t2 : Nat} (h : t1 ≤ t2) :
    get_bytes_used t1 ps ≤ get_bytes_used t2 ps := by
  rw [get_bytes_used_eq_sum hs, get_bytes_used_eq_sum hs]
  exact List.sum_le_sum fun p _ => Nat.div_le_div_right h

theorem div_le_get_bytes_used {ps : List Nat} (hs : List.Sorted (· ≤ ·) ps)
    {p : Nat} (hmem : p ∈ ps) (t : Nat) :
    t / p ≤ get_bytes_used t ps := by
  rw [get_bytes_used_eq_sum hs]
  exact List.le_sum_of_mem (List.mem_map_of_mem (fun q => t / q) hmem)

/-- The reference consumption at a positive member of a sorted list is at
least 1 (the member itself contributes `p / p = 1`). -/
theorem one_le_get_bytes_used_self {ps : List Nat} (hs : List.Sorted (· ≤ ·) ps)
    {p : Nat} (hmem : p ∈ ps) (hp : 0 < p) :
    1 ≤ get_bytes_used p ps := by
  have h := div_le_get_bytes_used hs hmem p
  rwa [Nat.div_self hp] at h

/-! ### The linear scan -/

theorem linear_scan_exit {fuel cap : Nat} {ps : List Nat} {b t : Nat}
    (hb : cap ≤ b) (hf : 1 ≤ fuel) :
    linear_scan fuel cap ps b t = some (t - 1) := by
  obtain ⟨f, rfl⟩ : ∃ f, fuel = f + 1 := ⟨fuel - 1, by omega⟩
  rw [linear_scan_succ, if_neg (by omega)]

/-- If the scan starts strictly under capacity then it returns the first
time after the start whose consumption reaches capacity. -/
theorem linear_scan_finds (cap : Nat) (ps : List Nat) :
    ∀ n t b fuel, b < cap → cap ≤ get_bytes_used (t + n) ps →
      (∀ k, k < n → get_bytes_used (t + k) ps < cap) → n + 2 ≤ fuel →
      linear_scan fuel cap ps b t = some (t + n) := by
  intro n
  induction n with
  | zero =>
    intro t b fuel hb hn _ hfuel
    obtain ⟨f, rfl⟩ : ∃ f, fuel = f + 2 := ⟨fuel - 2, by omega⟩
    rw [Nat.add_zero] at hn
    rw [show f + 2 = f + 1 + 1 from rfl, linear_scan_succ, if_pos hb,
      linear_scan_succ, if_neg (by omega)]
    simp
  | succ n ih =>
    intro t b fuel hb hn hbefore hfuel
    have hf0 : get_bytes_used t ps < cap := by
      have h := hbefore 0 (by omega)
      rwa [Nat.add_zero] at h
    obtain ⟨f, rfl⟩ : ∃ f, fuel = f + 1 := ⟨fuel - 1, by omega⟩
    rw [linear_scan_succ, if_pos hb,
      show t + (n + 1) = (t + 1) + n by omega]
    apply ih (t + 1) _ f hf0
    · rwa [show t + 1 + n = t + (n + 1) by omega]
    · intro k hk
      have h := hbefore (k + 1) (by omega)
      rwa [show t + (k + 1) = t + 1 + k by omega] at h
    · omega

theorem scan_from_eq_of_ge {cap mp : Nat} {ps : List Nat} {t0 : Nat}
    (hb : cap ≤ get_bytes_used t0 ps) :
    scan_from cap mp ps t0 = some (t0 - 1) :=
  linear_scan_exit hb (by omega)

theorem scan_from_eq_of_lt {cap mp : Nat} {ps : List Nat} {t0 n : Nat}
    (hb : get_bytes_used t0 ps < cap)
    (hn : cap ≤ get_bytes_used (t0 + n) ps)
    (hbefore : ∀ k, k < n → get_bytes_used (t0 + k) ps < cap)
    (hfuel : n ≤ cap * mp + t0) :
    scan_from cap mp ps t0 = some (t0 + n) :=
  linear_scan_finds cap ps n t0 _ _ hb hn hbefore (by omega)

/-- Fuel sufficiency: whenever some time within `cap * mp` ticks of the
start reaches the capacity, the scan terminates with a value. -/
theorem scan_from_isSome {cap mp : Nat} {ps : List Nat} {t0 : Nat}
    (hex : ∃ k, k ≤ cap * mp ∧ cap ≤ get_bytes_used (t0 + k) ps) :
    ∃ v, scan_from cap mp ps t0 = some v := by
  by_cases hb : cap ≤ get_bytes_used t0 ps
  · exact ⟨t0 - 1, scan_from_eq_of_ge hb⟩
  · obtain ⟨k, hk, hck⟩ := hex
    have hEx : ∃ m, cap ≤ get_bytes_used (t0 + m) ps := ⟨k, hck⟩
    refine ⟨t0 + Nat.find hEx,
      scan_from_eq_of_lt (by omega) (Nat.find_spec hEx) ?_ ?_⟩
    · intro j hj
      have h := Nat.find_min hEx hj
      omega
    · have h := Nat.find_min' hEx hck
      omega

/-! ### The binary searches -/

/-- Every value the multiplier search can return is either its initial
`closest` or a probed midpoint, and midpoints stay strictly below the
current upper bound; hence the result never exceeds `B` when the initial
`closest` is at most `B` and the upper bound is at most `B + 1`. -/
theorem mult_search_le (cap mp : Nat) (ps : List Nat) (B : Nat) :
    ∀ d mn mx cl, mx - mn ≤ d → cl ≤ B → mx ≤ B + 1 →
      mult_search cap mp ps mn mx cl ≤ B := by
  intro d
  induction d with
  | zero =>
    intro mn mx cl hd hcl hmx
    rw [mult_search, dif_neg (by omega)]
    exact hcl
  | succ d ih =>
    intro mn mx cl hd hcl hmx
    by_cases h : mn < mx
    · rw [mult_search, dif_pos h]
      by_cases hp : get_bytes_used (mp * ((mn + mx) / 2)) ps > cap
      · rw [if_pos hp]
        exact ih mn ((mn + mx) / 2 - 1) cl (by omega) hcl (by omega)
      · rw [if_neg hp]
        exact ih ((mn + mx) / 2 + 1) mx ((mn + mx) / 2) (by omega) (by omega) hmx
    · rw [mult_search, dif_neg h]
      exact hcl

/-- The analogous bound for the time search: its `closest` is only ever
set to a lower bound strictly below the current upper bound, so the
result stays strictly below `B` when the initial `closest` does and the
upper bound is at most `B`. -/
theorem time_search_lt (cap : Nat) (ps : List Nat) (B : Nat) :
    ∀ d mn mx cl, mx - mn ≤ d → cl < B → mx ≤ B →
      time_search cap ps mn mx cl < B := by
  intro d
  induction d with
  | zero =>
    intro mn mx cl hd hcl hmx
    rw [time_search, dif_neg (by omega)]
    exact hcl
  | succ d ih =>
    intro mn mx cl hd hcl hmx
    by_cases h : mn < mx
    · rw [time_search, dif_pos h]
      by_cases hp : get_bytes_used ((mn + mx) / 2) ps > cap
      · rw [if_pos hp]
        exact ih mn ((mn + mx) / 2 - 1) cl (by omega) hcl (by omega)
      · rw [if_neg hp]
        exact ih ((mn + mx) / 2 + 1) mx mn (by omega) (by omega) hmx
    · rw [time_search, dif_neg h]
      exact hcl

/-- Full invariant analysis of the multiplier search.  `L` is the exact
threshold of the monotone probe (all multipliers up to `L` stay within
capacity, all beyond it up to `M` overshoot).  Under the loop invariants
of the source the search exits with `closest = L` or `closest = L - 1`
(the upper bound itself is never probed), and `closest` stays at least 1. -/
theorem mult_search_invariant (cap mp : Nat) (ps : List Nat)
    (hmono : ∀ a b : Nat, a ≤ b →
      get_bytes_used a ps ≤ get_bytes_used b ps)
    (L M : Nat) (hL1 : 1 ≤ L)
    (hPL : get_bytes_used (mp * L) ps ≤ cap)
    (hgr : ∀ m, L < m → m ≤ M → cap < get_bytes_used (mp * m) ps) :
    ∀ d mn mx cl, mx - mn ≤ d →
      1 ≤ mn → mn ≤ L + 1 → L ≤ mx → mx ≤ M → 1 ≤ cl → cl ≤ L →
      (cl = mn - 1 ∨ (cl = 1 ∧ mn = 1)) →
      ((mult_search cap mp ps mn mx cl = L ∨
          mult_search cap mp ps mn mx cl = L - 1) ∧
        1 ≤ mult_search cap mp ps mn mx cl) := by
  intro d
  induction d with
  | zero =>
    intro mn mx cl hd h1 h2 h3 h4 h5 h6 h7
    rw [mult_search, dif_neg (by omega)]
    omega
  | succ d ih =>
    intro mn mx cl hd h1 h2 h3 h4 h5 h6 h7
    by_cases h : mn < mx
    · rw [mult_search, dif_pos h]
      by_cases hp : get_bytes_used (mp * ((mn + mx) / 2)) ps > cap
      · rw [if_pos hp]
        have hLmid : L < (mn + mx) / 2 := by
          by_contra hc
          have hle : mp * ((mn + mx) / 2) ≤ mp * L :=
            Nat.mul_le_mul_left mp (by omega)
          have := le_trans (hmono _ _ hle) hPL
          omega
        exact ih mn ((mn + mx) / 2 - 1) cl (by omega) h1 h2 (by omega)
          (by omega) h5 h6 h7
      · rw [if_neg hp]
        have hmidL : (mn + mx) / 2 ≤ L := by
          by_contra hc
          have := hgr ((mn + mx) / 2) (by omega) (by omega)
          omega
        exact ih ((mn + mx) / 2 + 1) mx ((mn + mx) / 2) (by omega) (by omega)
          (by omega) h3 h4 (by omega) hmidL (by omega)
    · rw [mult_search, dif_neg h]
      omega

/-! ### Unfolding `calculate_eta` -/

/-- Unfolds `calculate_eta` past the boundary check and the reference
point for a non-zero capacity and a non-empty duration list. -/
theorem calculate_eta_cons (cap : Nat) (rest : List Nat) (hcap : cap ≠ 0)
    (mp : Nat) (hmp : (List.insertionSort (· ≤ ·) rest).getLast? = some mp) :
    calculate_eta (cap :: rest) =
      if get_bytes_used mp (List.insertionSort (· ≤ ·) rest) = cap then
        some mp
      else if get_bytes_used mp (List.insertionSort (· ≤ ·) rest) > cap then
        scan_from cap mp (List.insertionSort (· ≤ ·) rest)
          ((List.insertionSort (· ≤ ·) rest).headD 0)
      else
        scan_from cap mp (List.insertionSort (· ≤ ·) rest)
          (closest_time cap mp (List.insertionSort (· ≤ ·) rest)) := by
  simp only [calculate_eta]
  rw [if_neg hcap, hmp]

/-! ### Claim theorems -/

/-- C3: for every time `t ≥ 0` and every ascending list of positive
periods, `get_bytes_used` equals the sum of `t / p` over all periods `p`
(the early break never changes the result), and in particular the
consumption at time 0 is 0. -/
theorem consumption_eq_sum_and_zero (t : Nat) (ps : List Nat)
    (hs : List.Sorted (· ≤ ·) ps) (_hpos : ∀ p ∈ ps, 0 < p) :
    get_bytes_used t ps = (ps.map fun p => t / p).sum ∧
      get_bytes_used 0 ps = 0 := by
  refine ⟨get_bytes_used_eq_sum hs t, ?_⟩
  rw [get_bytes_used_eq_sum hs 0]
  apply List.sum_eq_zero
  intro x hx
  rcases List.mem_map.mp hx with ⟨p, _, rfl⟩
  exact Nat.zero_div p

/-- Witness for C3 at `t = 12`, periods `[2, 3, 4]`. -/
theorem consumption_eq_sum_and_zero_witness :
    (List.Sorted (· ≤ ·) [2, 3, 4] ∧ (∀ p ∈ [2, 3, 4], 0 < p)) ∧
      (get_bytes_used 12 [2, 3, 4] = ([2, 3, 4].map fun p => 12 / p).sum ∧
        get_bytes_used 0 [2, 3, 4] = 0) :=
  ⟨⟨by decide, by decide⟩,
    consumption_eq_sum_and_zero 12 [2, 3, 4] (by decide) (by decide)⟩

/-- C6: for a fixed ascending list of positive periods, the consumption
counter is monotonically non-decreasing in time. -/
theorem consumption_monotone (ps : List Nat) (hs : List.Sorted (· ≤ ·) ps)
    (_hpos : ∀ p ∈ ps, 0 < p) (t1 t2 : Nat) (h : t1 ≤ t2) :
    get_bytes_used t1 ps ≤ get_bytes_used t2 ps :=
  get_bytes_used_mono hs h

/-- Witness for C6 at periods `[2, 3, 4]`, times 5 and 9. -/
theorem consumption_monotone_witness :
    (List.Sorted (· ≤ ·) [2, 3, 4] ∧ (∀ p ∈ [2, 3, 4], 0 < p) ∧ 5 ≤ 9) ∧
      get_bytes_used 5 [2, 3, 4] ≤ get_bytes_used 9 [2, 3, 4] :=
  ⟨⟨by decide, by decide, by decide⟩,
    consumption_monotone [2, 3, 4] (by decide) (by decide) 5 9 (by decide)⟩

/-- C9: zero capacity short-circuits to `some 0` for every period list —
even empty or otherwise invalid ones, on which the remainder of the
algorithm would fail — so the boundary check returns before any other
computation touches the periods. -/
theorem eta_zero_capacity (periods : List Nat) : eta 0 periods = some 0 := rfl

/-- C8: with a positive capacity and an empty period list the algorithm
reaches the `process_durations[-1]` access on an empty list and fails
with an out-of-range access; the call returns no value (modelled `none`). -/
theorem eta_empty_periods (capacity : Nat) (hc : 0 < capacity) :
    eta capacity [] = none := by
  rw [eta]
  simp only [calculate_eta]
  rw [if_neg (by omega)]
  rfl

/-- Witness for C8 at capacity 7. -/
theorem eta_empty_periods_witness : 0 < 7 ∧ eta 7 [] = none :=
  ⟨by decide, eta_empty_periods 7 (by decide)⟩

/-- C10 (amended): `calculate_eta` does not mutate the caller-supplied
input list: the sort operates on the fresh list allocated by the slice
`user_input[1:]`, so the caller's list is unchanged after the call. -/
theorem caller_list_unchanged (user_input : List Nat) :
    calculate_eta_caller_list user_input = user_input := rfl

/-- C10 (counterexample): on input `[16, 7, 3]` the internal ascending
sort would reorder the durations `[7, 3]`, yet the caller's list is
unchanged after the call — refuting the claimed mutation of caller data. -/
theorem caller_list_unchanged_concrete :
    calculate_eta_caller_list [16, 7, 3] = [16, 7, 3] ∧
      List.insertionSort (· ≤ ·) (List.drop 1 [16, 7, 3]) ≠
        List.drop 1 [16, 7, 3] :=
  ⟨rfl, by decide⟩

/-- C1: the claim fails on the code.  At capacity 6 with periods `[2, 3]`
the program returns time 7, but consumption at time 7 is only 5 < 6; the
smallest time whose consumption reaches 6 is 8 (the final linear scan
returns `time_taken - 1` without advancing whenever consumption at its
starting time — here the `closest_time` 8 — already meets the capacity). -/
theorem eta_below_capacity_at_six :
    eta 6 [2, 3] = some 7 ∧ get_bytes_used 7 [2, 3] = 5 ∧
      get_bytes_used 8 [2, 3] = 6 := by
  refine ⟨?_, by decide, by decide⟩
  simp [eta, calculate_eta, closest_time, closest_multiplier, mult_search,
    time_search, scan_from, linear_scan, get_bytes_used]

/-- C5: the claim fails on the code.  For fixed periods `[2, 3]` the
result drops from 12 at capacity 9 to 11 at capacity 10, so the returned
time is not monotone in the capacity (at capacity 10 the linear scan
starts at `closest_time = 12`, whose consumption is already 10, and
returns `12 - 1` although consumption at 11 is only 8). -/
theorem eta_not_monotone_nine_ten :
    eta 9 [2, 3] = some 12 ∧ eta 10 [2, 3] = some 11 := by
  constructor <;>
    simp [eta, calculate_eta, closest_time, closest_multiplier, mult_search,
      time_search, scan_from, linear_scan, get_bytes_used]

/-- C2 (counterexample): at capacity 2 with the single period 5 the
reference consumption is 1, the multiplier range is `[1, 2]`, and the
multiplier 2 qualifies (`consumption(10) = 2 ≤ 2`), yet the search
returns 1 — the largest qualifying multiplier is not always found. -/
theorem mult_search_misses_largest :
    closest_multiplier 2 5 [5] = 1 ∧ 2 ≤ 2 / get_bytes_used 5 [5] ∧
      get_bytes_used (5 * 2) [5] ≤ 2 := by
  refine ⟨?_, by decide, by decide⟩
  simp [closest_multiplier, mult_search, get_bytes_used]

/-- C2 (amended): whenever the reference consumption
`refC = consumption(maxPeriod, periods)` is strictly below the capacity,
the multiplier search returns a multiplier `m ≥ 1` with
`consumption(m * maxPeriod, periods) ≤ capacity` that is either the
largest such multiplier `L` in `[1, capacity / refC]` or exactly `L - 1`
(the loop exits when its bounds meet without ever probing the upper
bound, so it can stop one short of the largest qualifying multiplier). -/
theorem mult_search_largest_or_pred (cap : Nat) (ps : List Nat)
    (hs : List.Sorted (· ≤ ·) ps) (hpos : ∀ p ∈ ps, 0 < p) (mp : Nat)
    (hmp : ps.getLast? = some mp)
    (hlt : get_bytes_used mp ps < cap) :
    1 ≤ closest_multiplier cap mp ps ∧
      get_bytes_used (mp * closest_multiplier cap mp ps) ps ≤ cap ∧
      (closest_multiplier cap mp ps =
          Nat.findGreatest (fun m => get_bytes_used (mp * m) ps ≤ cap)
            (cap / get_bytes_used mp ps) ∨
        closest_multiplier cap mp ps =
          Nat.findGreatest (fun m => get_bytes_used (mp * m) ps ≤ cap)
            (cap / get_bytes_used mp ps) - 1) := by
  have hmem : mp ∈ ps := List.mem_of_getLast?_eq_some hmp
  have hmppos : 0 < mp := hpos mp hmem
  have href : 1 ≤ get_bytes_used mp ps :=
    one_le_get_bytes_used_self hs hmem hmppos
  have hM1 : 1 ≤ cap / get_bytes_used mp ps :=
    (Nat.one_le_div_iff (by omega)).mpr (by omega)
  have hP1 : get_bytes_used (mp * 1) ps ≤ cap := by
    rw [Nat.mul_one]; omega
  have hL1 : 1 ≤ Nat.findGreatest (fun m => get_bytes_used (mp * m) ps ≤ cap)
      (cap / get_bytes_used mp ps) :=
    Nat.le_findGreatest (P := fun m => get_bytes_used (mp * m) ps ≤ cap)
      hM1 hP1
  have hLM : Nat.findGreatest (fun m => get_bytes_used (mp * m) ps ≤ cap)
        (cap / get_bytes_used mp ps) ≤ cap / get_bytes_used mp ps :=
    Nat.findGreatest_le _
  have hPL : get_bytes_used
      (mp * Nat.findGreatest (fun m => get_bytes_used (mp * m) ps ≤ cap)
        (cap / get_bytes_used mp ps)) ps ≤ cap :=
    Nat.findGreatest_spec (P := fun m => get_bytes_used (mp * m) ps ≤ cap)
      hM1 hP1
  have hgr : ∀ m,
      Nat.findGreatest (fun m => get_bytes_used (mp * m) ps ≤ cap)
        (cap / get_bytes_used mp ps) < m →
      m ≤ cap / get_bytes_used mp ps →
      cap < get_bytes_used (mp * m) ps := by
    intro m h1 h2
    have h3 := Nat.findGreatest_is_greatest
      (P := fun m => get_bytes_used (mp * m) ps ≤ cap) h1 h2
    omega
  have hmain := mult_search_invariant cap mp ps
    (fun a b hab => get_bytes_used_mono hs hab) _ _ hL1 hPL hgr
    (cap / get_bytes_used mp ps) 1 (cap / get_bytes_used mp ps) 1
    (by omega) (by omega) (by omega) hLM (by omega) (by omega) (by omega)
    (by omega)
  unfold closest_multiplier
  refine ⟨hmain.2, ?_, hmain.1⟩
  rcases hmain.1 with h | h
  · rw [h]; exact hPL
  · rw [h]
    have hle : mp * (Nat.findGreatest (fun m => get_bytes_used (mp * m) ps ≤ cap)
          (cap / get_bytes_used mp ps) - 1) ≤
        mp * Nat.findGreatest (fun m => get_bytes_used (mp * m) ps ≤ cap)
          (cap / get_bytes_used mp ps) :=
      Nat.mul_le_mul_left mp (by omega)
    exact le_trans (get_bytes_used_mono hs hle) hPL

/-- Witness for the amended C2 at capacity 2, periods `[5]` (the search
returns 1 = L - 1 there, with L = 2). -/
theorem mult_search_largest_or_pred_witness :
    (List.Sorted (· ≤ ·) [5] ∧ (∀ p ∈ [5], 0 < p) ∧
        ([5] : List Nat).getLast? = some 5 ∧ get_bytes_used 5 [5] < 2) ∧
      (1 ≤ closest_multiplier 2 5 [5] ∧
        get_bytes_used (5 * closest_multiplier 2 5 [5]) [5] ≤ 2 ∧
        (closest_multiplier 2 5 [5] =
            Nat.findGreatest (fun m => get_bytes_used (5 * m) [5] ≤ 2)
              (2 / get_bytes_used 5 [5]) ∨
          closest_multiplier 2 5 [5] =
            Nat.findGreatest (fun m => get_bytes_used (5 * m) [5] ≤ 2)
              (2 / get_bytes_used 5 [5]) - 1)) :=
  ⟨⟨by decide, by decide, rfl, by decide⟩,
    mult_search_largest_or_pred 2 [5] (by decide) (by decide) 5 rfl
      (by decide)⟩

/-- C4: for a positive capacity and a single positive period `p`, the
algorithm returns exactly `capacity * p`.  (At capacity 1 the reference
point matches exactly; otherwise the multiplier search stays at most
`capacity - 1`, the time search therefore starts the linear scan strictly
below `capacity * p`, and the scan walks up to the exact crossing.) -/
theorem eta_single_period (cap p : Nat) (hcap : 0 < cap) (hp : 0 < p) :
    eta cap [p] = some (cap * p) := by
  have hsingle : ∀ t, get_bytes_used t [p] = t / p := by
    intro t
    rw [get_bytes_used_cons, get_bytes_used_nil]
    by_cases h : p > t
    · rw [if_pos h, Nat.div_eq_of_lt h]
    · rw [if_neg h, Nat.add_zero]
  have hmp : (List.insertionSort (· ≤ ·) [p]).getLast? = some p := rfl
  rw [eta, calculate_eta_cons cap [p] (by omega) p hmp]
  rw [show List.insertionSort (· ≤ ·) [p] = [p] from rfl]
  have href : get_bytes_used p [p] = 1 := by rw [hsingle, Nat.div_self hp]
  by_cases hc1 : cap = 1
  · subst hc1
    rw [if_pos (by omega), Nat.one_mul]
  · have hcap2 : 2 ≤ cap := by omega
    rw [if_neg (by omega), if_neg (by omega)]
    have hM : cap / get_bytes_used p [p] = cap := by rw [href, Nat.div_one]
    have hcm : closest_multiplier cap p [p] ≤ cap - 1 := by
      unfold closest_multiplier
      rw [hM]
      exact mult_search_le cap p [p] (cap - 1) cap 1 cap 1 (by omega)
        (by omega) (by omega)
    have hmx : p * (closest_multiplier cap p [p] + 1) ≤ p * cap :=
      Nat.mul_le_mul_left p (by omega)
    have he1 : p * (closest_multiplier cap p [p] + 1) =
        p * closest_multiplier cap p [p] + p := by ring
    have he2 : p * cap = cap * p := Nat.mul_comm p cap
    have hct : closest_time cap p [p] < cap * p := by
      unfold closest_time
      exact time_search_lt cap [p] (cap * p)
        (p * (closest_multiplier cap p [p] + 1))
        (p * closest_multiplier cap p [p])
        (p * (closest_multiplier cap p [p] + 1))
        (p * closest_multiplier cap p [p])
        (by omega) (by omega) (by omega)
    have hb : get_bytes_used (closest_time cap p [p]) [p] < cap := by
      rw [hsingle]
      exact (Nat.div_lt_iff_lt_mul hp).mpr hct
    have harrive : cap ≤ get_bytes_used
        (closest_time cap p [p] + (cap * p - closest_time cap p [p])) [p] := by
      rw [show closest_time cap p [p] + (cap * p - closest_time cap p [p]) =
        cap * p by omega, hsingle, Nat.mul_div_cancel _ hp]
    have hbefore : ∀ k, k < cap * p - closest_time cap p [p] →
        get_bytes_used (closest_time cap p [p] + k) [p] < cap := by
      intro k hk
      rw [hsingle]
      exact (Nat.div_lt_iff_lt_mul hp).mpr (by omega)
    rw [scan_from_eq_of_lt hb harrive hbefore (by omega)]
    exact congrArg some (by omega)

/-- Witness for C4 at capacity 3, period 4. -/
theorem eta_single_period_witness :
    (0 < 3 ∧ 0 < 4) ∧ eta 3 [4] = some (3 * 4) :=
  ⟨⟨by decide, by decide⟩, eta_single_period 3 4 (by decide) (by decide)⟩

/-- C7: for every capacity and every non-empty list of positive periods,
the algorithm terminates with a value: the binary searches decrease their
bounds, the linear scan reaches a crossing within `capacity * maxPeriod`
steps of any start, and no division by zero or failing access occurs. -/
theorem eta_total (capacity : Nat) (periods : List Nat) (hne : periods ≠ [])
    (hpos : ∀ p ∈ periods, 0 < p) :
    ∃ v, eta capacity periods = some v := by
  by_cases hc : capacity = 0
  · subst hc
    exact ⟨0, rfl⟩
  · have hs : List.Sorted (· ≤ ·) (List.insertionSort (· ≤ ·) periods) :=
      List.sorted_insertionSort _ periods
    have hperm := List.perm_insertionSort (· ≤ ·) periods
    have hsne : List.insertionSort (· ≤ ·) periods ≠ [] := by
      intro h
      rw [h] at hperm
      exact hne hperm.symm.eq_nil
    obtain ⟨mp, hmp⟩ :
        ∃ mp, (List.insertionSort (· ≤ ·) periods).getLast? = some mp := by
      cases hh : (List.insertionSort (· ≤ ·) periods).getLast? with
      | none => exact absurd (List.getLast?_eq_none_iff.mp hh) hsne
      | some a => exact ⟨a, rfl⟩
    have hmem : mp ∈ List.insertionSort (· ≤ ·) periods :=
      List.mem_of_getLast?_eq_some hmp
    have hmppos : 0 < mp := hpos mp (hperm.subset hmem)
    rw [eta, calculate_eta_cons capacity periods hc mp hmp]
    have hcross : ∀ t0 : Nat, ∃ k, k ≤ capacity * mp ∧
        capacity ≤ get_bytes_used (t0 + k)
          (List.insertionSort (· ≤ ·) periods) := by
      intro t0
      refine ⟨capacity * mp, le_refl _, ?_⟩
      have h1 : capacity * mp / mp ≤
          get_bytes_used (capacity * mp) (List.insertionSort (· ≤ ·) periods) :=
        div_le_get_bytes_used hs hmem _
      rw [Nat.mul_div_cancel _ hmppos] at h1
      have h2 := get_bytes_used_mono hs
        (show capacity * mp ≤ t0 + capacity * mp by omega)
      omega
    by_cases he : get_bytes_used mp (List.insertionSort (· ≤ ·) periods) =
        capacity
    · rw [if_pos he]
      exact ⟨mp, rfl⟩
    · rw [if_neg he]
      by_cases hgt : get_bytes_used mp (List.insertionSort (· ≤ ·) periods) >
          capacity
      · rw [if_pos hgt]
        exact scan_from_isSome (hcross _)
      · rw [if_neg hgt]
        exact scan_from_isSome (hcross _)

/-- Witness for C7 at capacity 16, periods `[2, 4, 3, 6]`. -/
theorem eta_total_witness :
    ([2, 4, 3, 6] ≠ ([] : List Nat) ∧ (∀ p ∈ [2, 4, 3, 6], 0 < p)) ∧
      ∃ v, eta 16 [2, 4, 3, 6] = some v :=
  ⟨⟨by decide, by decide⟩, eta_total 16 [2, 4, 3, 6] (by decide) (by decide)⟩

end EtaCalculator
